import Mathlib

/-!
Verification development for the jpath library (src/jpath.go): a JSONPath
dialect evaluated over decoded JSON trees.

Modelling conventions:
* Go's decoded JSON values (`interface{}` trees produced by `encoding/json`)
  are the inductive `JValue`.  Go's `float64` payload is modelled as `Rat`:
  no claim depends on floating-point arithmetic, only on the runtime variant.
* Go's `map[string]interface{}` is modelled as an association list of entries
  (`List (String × JValue)`).  A Go map has unique keys; the predicate
  `WFb` states that well-formedness.  Map *lookup* (`o[k]`) is `go_lookup`.
  Map *iteration* order is unspecified in Go; the list order of an
  association list fixes one possible iteration order, and the relation
  `SameMap` below relates two presentations of the same Go map tree.
* Go strings are modelled as `List Char`.  All segment separators matched by
  the library's patterns are ASCII, so Go's byte-based slicing (`f[1:]`,
  `f[2:]`, `f[1:len(f)-1]`) coincides with character-based slicing.
* A Go runtime panic is modelled as `none` in an `Option` result.  The only
  panics reachable inside the query core are the slice-expression bounds
  panic in `idxFilter` and (in the struct layer) the `results[0]` access on
  an empty result set; filters that cannot panic still return `Option` so
  that the query driver composes uniformly.
* Machine integers (`int`) are modelled as `Int` without the 64-bit bound:
  `strconv.Atoi` overflow failure and the `float64` rounding inside
  `outOfRange` only matter for magnitudes far beyond any realisable slice
  length, so the exact `Int` comparison is faithful for every representable
  array.
-/

/-- A decoded JSON value as produced by Go's `encoding/json` into
`interface{}`: `nil`, `bool`, `float64`, `string`, `[]interface{}`,
`map[string]interface{}`. -/
inductive JValue where
  | null
  | bool (b : Bool)
  | num (x : Rat)
  | str (s : String)
  | arr (elems : List JValue)
  | obj (entries : List (String × JValue))

/-- A Go map read `o[k]`: the value bound to `k` (unique when keys are
`Nodup`, which holds for every map produced by decoding JSON). -/
def go_lookup (k : String) : List (String × JValue) → Option JValue
  | [] => none
  | kv :: rest => if kv.1 = k then some kv.2 else go_lookup k rest

/-! ### String helpers (Go `strconv` / `strings`) -/

/-- The character class of `\w` in Go's `regexp`: ASCII letters, digits and
underscore. -/
def isWordChar (c : Char) : Bool := c.isAlphanum || c = '_'

/-- Decimal digit accumulation used by `go_Atoi`: fails on the first
non-digit character. -/
def digitsVal (acc : Nat) : List Char → Option Nat
  | [] => some acc
  | c :: rest => if c.isDigit then digitsVal (acc * 10 + (c.toNat - 48)) rest else none

/-- Go's `strconv.Atoi`: optional single sign followed by at least one
decimal digit; anything else fails.  (The `int64` overflow failure of the
real `Atoi` is not modelled; see the header note.) -/
def go_Atoi (l : List Char) : Option Int :=
  match l with
  | [] => none
  | c :: rest =>
    if c = '+' then
      if rest = [] then none else (digitsVal 0 rest).map Int.ofNat
    else if c = '-' then
      if rest = [] then none else (digitsVal 0 rest).map (fun n => -(n : Int))
    else (digitsVal 0 (c :: rest)).map Int.ofNat

/-- Go's `strings.Split(s, sep)` for a one-character separator: always
returns at least one (possibly empty) group. -/
def splitOn (sep : Char) : List Char → List (List Char)
  | [] => [[]]
  | c :: rest =>
    if c = sep then [] :: splitOn sep rest
    else
      match splitOn sep rest with
      | [] => [[c]]
      | g :: gs => (c :: g) :: gs

/-! ### The path compiler

`Query` compiles the expression with
`matcher.FindAllStringSubmatch(sel, -1)` where `matcher` is the alternation
of the three segment grammars of `filterMapping`:
`\.{2}\w+` (descendant), `\.\w+` (child), `\[.+\]` (index).  At any input
position at most one of the three alternatives can match (they are
distinguished by their first one or two characters), so the map-iteration
order in which `init` assembles the alternation does not affect which text
is matched, and each match is classified by the grammar that produced it.
`scan` below is that combined leftmost scan, written as a fuel-indexed
structural recursion (the fuel `l.length` is an upper bound on the number
of scanning steps; `scanF_congr` shows any sufficient fuel is equivalent).
Greediness of `\w+` is `takeWhile`; greediness of `.+` inside brackets
means the match extends to the last `]` on the current line
(`bracketMatch`), since `.` does not match a newline. -/

inductive SegKind where
  | desc
  | child
  | idx
  deriving DecidableEq

/-- Index of the last occurrence of `c` in `l`, if any. -/
def lastIdxOf (c : Char) (l : List Char) : Option Nat :=
  match l.reverse.findIdx? (· = c) with
  | some k => some (l.length - 1 - k)
  | none => none

/-- Matching of `.+\]` (greedy) against the text following `[`: the match
ends at the last `]` of the current line, provided at least one character
separates it from the `[`.  Returns the bracket's interior and the rest of
the input. -/
def bracketMatch (rest : List Char) : Option (List Char × List Char) :=
  let pre := rest.takeWhile (· ≠ '\n')
  match lastIdxOf ']' pre with
  | some j => if 1 ≤ j then some (pre.take j, rest.drop (j + 1)) else none
  | none => none

/-- One leftmost scan of the combined segment pattern, fuel-indexed.  At a
position starting with two periods only the descendant grammar can match;
at one period followed by a non-period only the child grammar can; at `[`
only the index grammar can; when no grammar matches at the current
position the scan advances one character, exactly as `FindAll` does. -/
def scanF : Nat → List Char → List (SegKind × List Char)
  | 0, _ => []
  | _ + 1, [] => []
  | fuel + 1, c :: rest =>
    if c = '.' then
      match rest with
      | [] => []
      | c2 :: rest2 =>
        if c2 = '.' then
          if rest2.takeWhile isWordChar = [] then scanF fuel rest
          else (SegKind.desc, '.' :: '.' :: rest2.takeWhile isWordChar) ::
            scanF fuel (rest2.dropWhile isWordChar)
        else
          if rest.takeWhile isWordChar = [] then scanF fuel rest
          else (SegKind.child, '.' :: rest.takeWhile isWordChar) ::
            scanF fuel (rest.dropWhile isWordChar)
    else if c = '[' then
      match bracketMatch rest with
      | some (inner, rest') => (SegKind.idx, '[' :: (inner ++ [']'])) :: scanF fuel rest'
      | none => scanF fuel rest
    else scanF fuel rest

/-- The compiled segment list of an expression:
`matcher.FindAllStringSubmatch(sel, -1)` classified through
`filterForSegmentResults`.  Each segment carries the raw matched text
(separators included), exactly as the source hands it to its filter. -/
def scan (l : List Char) : List (SegKind × List Char) := scanF l.length l

/-! ### The filters -/

/-- Source `attributeFilter`: shave the leading period, look the name up in
the map; empty on any non-map value or absent key. -/
def attributeFilter (f : List Char) (v : JValue) : List JValue :=
  let name := String.mk (f.drop 1)
  match v with
  | .obj entries =>
    match go_lookup name entries with
    | some attr => [attr]
    | none => []
  | _ => []

/-- Source `outOfRange`: `math.Abs(float64(idx)) >= float64(len(sl))`.
For every magnitude reachable by a real slice length the float comparison
agrees with the exact one modelled here. -/
def outOfRange (idx : Int) (sl : List JValue) : Bool :=
  idx.natAbs ≥ sl.length

/-- A Go slice expression `sl[lo:hi]`: defined when `0 ≤ lo ≤ hi ≤ len`,
otherwise a runtime panic (`none`). -/
def goSliceExpr (lo hi : Int) (sl : List JValue) : Option (List JValue) :=
  if 0 ≤ lo ∧ lo ≤ hi ∧ hi ≤ (sl.length : Int) then
    some ((sl.drop lo.toNat).take (hi - lo).toNat)
  else none

/- The slice branch of `idxFilter`, operating on the groups of
`strings.Split(f, ":")`, split into the start-bound half (`sliceCase`)
and the end-bound half (`sliceEnd`).  The source indexes `sl[0]` and
`sl[1]` without checking the group count: the second group is read only
after the first is empty or a valid in-range integer, and when it is
missing that read is an index-out-of-range panic (`none`); `Split` never
returns zero groups, so the `[]` case of `sliceCase` is unreachable from
`idxFilter` (it models the dead final `return` of the source). -/
/-- End-bound half of the slice branch: reads `sl[1]`, validates and
normalizes it, and evaluates the Go slice expression. -/
def sliceEnd (rest : List (List Char)) (start0 : Int) (slice : List JValue) :
    Option (List JValue) :=
  let start := if start0 < 0 then start0 + slice.length else start0
  match rest with
  | [] => none
  | g1 :: _ =>
    if g1 = [] then goSliceExpr start slice.length slice
    else
      match go_Atoi g1 with
      | none => some []
      | some e =>
        if outOfRange e slice then some []
        else goSliceExpr start (if e < 0 then e + slice.length else e) slice

/-- Start-bound half of the slice branch. -/
def sliceCase (sl : List (List Char)) (slice : List JValue) : Option (List JValue) :=
  match sl with
  | [] => none
  | g0 :: rest =>
    if g0 = [] then sliceEnd rest 0 slice
    else
      match go_Atoi g0 with
      | none => some []
      | some s =>
        if outOfRange s slice then some []
        else sliceEnd rest s slice

/-- Source `idxFilter`: shave the brackets; non-slices give empty; then the
wildcard, simple-index and slice branches in order.  The final
`return make([]interface{}, 0)` of the source is dead code because
`strings.Split` never returns an empty group list. -/
def idxFilter (f : List Char) (v : JValue) : Option (List JValue) :=
  let fc := (f.drop 1).dropLast
  match v with
  | .arr slice =>
    if fc = ['*'] then some slice
    else
      match go_Atoi fc with
      | some i =>
        if outOfRange i slice then some []
        else
          let start := if i < 0 then i + slice.length else i
          goSliceExpr start (start + 1) slice
      | none => sliceCase (splitOn ':' fc) slice
  | _ => some []

/- Source `descendingAttributeFilter` (together with the two loop bodies
`descList` and `descEntries`): a direct hit on a map returns that single
value and stops; otherwise maps and slices fan out recursively in
iteration order; scalars give nothing. -/
mutual
/-- Source `descendingAttributeFilter` on one value. -/
def descendingAttributeFilter (f : List Char) : JValue → List JValue
  | .obj entries =>
    match go_lookup (String.mk (f.drop 2)) entries with
    | some c => [c]
    | none => descEntries f entries
  | .arr elems => descList f elems
  | _ => []
/-- The slice-iteration loop of `descendingAttributeFilter`. -/
def descList (f : List Char) : List JValue → List JValue
  | [] => []
  | x :: xs => descendingAttributeFilter f x ++ descList f xs
/-- The map-iteration loop of `descendingAttributeFilter`, in the entry
order of one presentation of the map. -/
def descEntries (f : List Char) : List (String × JValue) → List JValue
  | [] => []
  | kv :: rest => descendingAttributeFilter f kv.2 ++ descEntries f rest
end

/-! ### The query driver -/

/-- Dispatch of `filterForSegmentResults`: the filter registered for the
grammar that matched.  The two filters that cannot panic are wrapped in
`some`. -/
def applyFilter : SegKind → List Char → JValue → Option (List JValue)
  | .desc, f, v => some (descendingAttributeFilter f v)
  | .child, f, v => some (attributeFilter f v)
  | .idx, f, v => idxFilter f v

/-- The inner loop of `Query`: `tempObjs = append(tempObjs, f(s, o)...)`
over the working set, aborting at the first panic. -/
def mapConcat (g : JValue → Option (List JValue)) : List JValue → Option (List JValue)
  | [] => some []
  | o :: objs =>
    match g o with
    | none => none
    | some rs =>
      match mapConcat g objs with
      | none => none
      | some rest => some (rs ++ rest)

/-- The outer loop of `Query` over the compiled segments. -/
def QueryL (segs : List (SegKind × List Char)) (objs : List JValue) : Option (List JValue) :=
  match segs with
  | [] => some objs
  | seg :: rest =>
    match mapConcat (applyFilter seg.1 seg.2) objs with
    | none => none
    | some objs' => QueryL rest objs'

/-- Source `Query`: compile the expression, start the working set at the
document root (the decoded top-level map), and run every segment. -/
def Query (sel : String) (m : List (String × JValue)) : Option (List JValue) :=
  QueryL (scan sel.data) [JValue.obj m]

/-! ### Typed single-value accessors

The source names are `String`, `Bool`, `Float`; those names collide with
Lean builtins, so the model suffixes them.  Each one ranges over the query
results but returns during the first loop iteration in both branches, so
only the first result is ever examined. -/

/-- Source `String` accessor. -/
def stringAccessor (sel : String) (m : List (String × JValue)) : Option (String × Bool) :=
  (Query sel m).map fun results =>
    match results with
    | .str r :: _ => (r, true)
    | _ :: _ => ("", false)
    | [] => ("", false)

/-- Source `Bool` accessor. -/
def boolAccessor (sel : String) (m : List (String × JValue)) : Option (Bool × Bool) :=
  (Query sel m).map fun results =>
    match results with
    | .bool r :: _ => (r, true)
    | _ :: _ => (false, false)
    | [] => (false, false)

/-- Source `Float` accessor. -/
def floatAccessor (sel : String) (m : List (String × JValue)) : Option (Rat × Bool) :=
  (Query sel m).map fun results =>
    match results with
    | .num r :: _ => (r, true)
    | _ :: _ => (0, false)
    | [] => (0, false)

/-! ### The struct-population layer (`unmarshal`)

The reflection-driven field loop is modelled on an explicit field list: a
`StructField` carries what `reflect` reads off a struct field (name,
`jpath` tag, settability, the field type's `reflect.Kind`, the element
type for slice fields, the printed type name) together with its current
contents, modelled as a `JValue`.  A decoded JSON value has dynamic type
`bool`, `float64`, `string`, `[]interface{}` or
`map[string]interface{}`, so `reflect.Kind` equality coincides with type
assignability for every non-interface element type that can ever accept a
decoded value; `GoElemType` enumerates exactly those element types.
`reflect.ValueOf(nil)` is the zero `reflect.Value` (kind `Invalid`), on
which `Type()` and `reflect.Append` panic; both panics are modelled.
(The panic `reflect.Value.Set` itself would raise when kinds agree but
types differ, e.g. a `map[string]string` field, is outside every claim
and not modelled.) -/

inductive GoKind where
  | invalid
  | bool
  | int
  | float64
  | string
  | slice
  | map
  deriving DecidableEq

/-- The `reflect.Kind` of `reflect.ValueOf(result)` for a decoded value. -/
def reflectKind : JValue → GoKind
  | .null => .invalid
  | .bool _ => .bool
  | .num _ => .float64
  | .str _ => .string
  | .arr _ => .slice
  | .obj _ => .map

/-- The string `reflect.Type` prints for a decoded value (used in error
messages); never asked for `nil`, whose `Type()` call panics first. -/
def goTypeName : JValue → String
  | .null => ""
  | .bool _ => "bool"
  | .num _ => "float64"
  | .str _ => "string"
  | .arr _ => "[]interface {}"
  | .obj _ => "map[string]interface {}"

/-- Element types of slice fields that can ever accept a decoded value,
plus `iface` for `[]interface{}` and `other` for everything else. -/
inductive GoElemType where
  | iface
  | bool
  | float64
  | string
  | ifaceSlice
  | ifaceMap
  | other (typeName : String)
  deriving DecidableEq

/-- Assignability of a decoded value to a slice's element type.  `nil`
fits nothing: `reflect.ValueOf(nil)` is the zero `Value` and
`reflect.Append` panics on it. -/
def fitsElem : GoElemType → JValue → Bool
  | _, .null => false
  | .iface, _ => true
  | .bool, .bool _ => true
  | .float64, .num _ => true
  | .string, .str _ => true
  | .ifaceSlice, .arr _ => true
  | .ifaceMap, .obj _ => true
  | _, _ => false

/-- One struct field as `unmarshal` sees it through reflection. -/
structure StructField where
  name : String
  tag : String
  canSet : Bool
  kind : GoKind
  elem : GoElemType
  typeName : String
  value : JValue

/-- Outcome of the `unmarshal` loop: normal return, an error return, or a
runtime panic. -/
inductive UOutcome where
  | ok
  | err (msg : String)
  | crash (msg : String)

/-- The `reflect.Append` loop over the query results for a slice field:
collects the values in order; a non-fitting non-nil value is trapped by
the deferred `recover` and turned into an error; a nil value makes
`reflect.Append` panic, and then `resultValue.Type()` inside the deferred
error constructor panics again, which escapes the `recover`. -/
def appendLoop (fld : StructField) (acc : List JValue) : List JValue → Sum (List JValue) UOutcome
  | [] => .inl acc
  | r :: rest =>
    if fitsElem fld.elem r then appendLoop fld (acc ++ [r]) rest
    else
      match r with
      | .null => .inr (.crash "reflect: call of reflect.Value.Type on zero Value")
      | _ => .inr (.err (fld.name ++ " - value of type " ++ goTypeName r ++
          " will not fit into slice of " ++ fld.typeName))

/-- Processing of a single field inside the `unmarshal` loop: `none` means
the loop continues with the (possibly updated) field, `some o` means the
whole call stops with outcome `o` and the field unchanged. -/
def processField (d : List (String × JValue)) (fld : StructField) :
    StructField × Option UOutcome :=
  if fld.canSet = false then (fld, none)
  else if fld.tag = "" then (fld, none)
  else
    let q := String.mk ((splitOn ' ' fld.tag.data).headI)
    match Query q d with
    | none => (fld, some (.crash "runtime error: slice bounds out of range"))
    | some results =>
      if fld.kind ≠ .slice then
        match results with
        | [] => (fld, some (.crash "runtime error: index out of range [0] with length 0"))
        | r0 :: _ =>
          if reflectKind r0 ≠ fld.kind then
            match r0 with
            | .null => (fld, some (.crash "reflect: call of reflect.Value.Type on zero Value"))
            | _ => (fld, some (.err (fld.name ++ " - value of type " ++ goTypeName r0 ++
                " is not assignable to type " ++ fld.typeName)))
          else ({ fld with value := r0 }, none)
      else
        match appendLoop fld [] results with
        | .inr o => (fld, some o)
        | .inl vals => ({ fld with value := .arr vals }, none)

/-- Source `unmarshal` (the field loop): fields are processed in order;
an error or panic stops the loop, leaving the current and all later
fields untouched.  The returned list is the final contents of every
field. -/
def unmarshalFields (d : List (String × JValue)) : List StructField → List StructField × UOutcome
  | [] => ([], .ok)
  | fld :: rest =>
    match processField d fld with
    | (fld', some o) => (fld' :: rest, o)
    | (fld', none) =>
      let pr := unmarshalFields d rest
      (fld' :: pr.1, pr.2)

/-! ### Two presentations of the same Go map tree

Go's map iteration order is unspecified and varies between `range` loops
over the same unmodified map.  An association list fixes one enumeration
order of each map's entries; the relation `SameMap` below holds of two
trees exactly when they present the same Go value tree, entry order
aside: scalars must be equal, array elements must correspond in order,
and the entry list of a map on the left must be a permutation of an entry
list that matches the right one key for key with related values.
`WFb` states the Go map invariant that keys are unique. -/

mutual
inductive SameMap : JValue → JValue → Prop
  | null : SameMap .null .null
  | bool (b : Bool) : SameMap (.bool b) (.bool b)
  | num (x : Rat) : SameMap (.num x) (.num x)
  | str (s : String) : SameMap (.str s) (.str s)
  | arr {xs ys : List JValue} : SameArr xs ys → SameMap (.arr xs) (.arr ys)
  | obj {kvs1 kvs2 : List (String × JValue)} (l : List (String × JValue)) :
      kvs1.Perm l → SameEnt l kvs2 → SameMap (.obj kvs1) (.obj kvs2)
inductive SameArr : List JValue → List JValue → Prop
  | nil : SameArr [] []
  | cons {x y : JValue} {xs ys : List JValue} :
      SameMap x y → SameArr xs ys → SameArr (x :: xs) (y :: ys)
inductive SameEnt : List (String × JValue) → List (String × JValue) → Prop
  | nil : SameEnt [] []
  | cons (k : String) {v1 v2 : JValue} {t1 t2 : List (String × JValue)} :
      SameMap v1 v2 → SameEnt t1 t2 → SameEnt ((k, v1) :: t1) ((k, v2) :: t2)
end

/-- Uniqueness of a key list, decidably. -/
def nodupKeys : List String → Bool
  | [] => true
  | k :: rest => (!rest.contains k) && nodupKeys rest

/- Well-formedness of a decoded tree: every map's keys are unique (true
of every tree produced by `encoding/json`). -/
mutual
/-- Well-formedness of one value. -/
def WFb : JValue → Bool
  | .obj entries => nodupKeys (entries.map Prod.fst) && WFbEntries entries
  | .arr elems => WFbList elems
  | _ => true
/-- Well-formedness of a list of values. -/
def WFbList : List JValue → Bool
  | [] => true
  | x :: xs => WFb x && WFbList xs
/-- Well-formedness of the values of an entry list. -/
def WFbEntries : List (String × JValue) → Bool
  | [] => true
  | kv :: rest => WFb kv.2 && WFbEntries rest
end

/-- Result sequences that contain the same values of the underlying Go
tree, in possibly different order: the left list is a permutation of a
list that matches the right one element for element. -/
def SameArrP (r1 r2 : List JValue) : Prop :=
  ∃ m, r1.Perm m ∧ SameArr m r2

/-- Lifting of `SameArrP` to possibly-panicking results: both runs panic,
or both succeed with `SameArrP`-related sequences. -/
def ROpt (o1 o2 : Option (List JValue)) : Prop :=
  (o1 = none ∧ o2 = none) ∨ ∃ r1 r2, o1 = some r1 ∧ o2 = some r2 ∧ SameArrP r1 r2

/-- Result sequences that contain the same values of the underlying Go
tree in the same order (the formal reading of "identical ordered
sequence" across two presentations of one tree). -/
def SameResOpt (o1 o2 : Option (List JValue)) : Prop :=
  (o1 = none ∧ o2 = none) ∨ ∃ r1 r2, o1 = some r1 ∧ o2 = some r2 ∧ SameArr r1 r2

/-! ### Basic lemmas about the helpers -/

theorem go_Atoi_star : go_Atoi ['*'] = none := rfl

theorem shave_brackets (f : List Char) : ((('[' :: (f ++ [']'])).drop 1).dropLast) = f := by
  simp

theorem splitOn_of_not_mem {sep : Char} : ∀ {l : List Char}, sep ∉ l → splitOn sep l = [l]
  | [], _ => rfl
  | c :: rest, h => by
    have hc : ¬c = sep := fun hh => h (hh ▸ List.mem_cons_self c rest)
    have hr : sep ∉ rest := fun hh => h (List.mem_cons_of_mem c hh)
    simp only [splitOn, if_neg hc, splitOn_of_not_mem hr]

theorem drop_take_one {l : List JValue} {i : Nat} (h : i < l.length) :
    (l.drop i).take 1 = [l.get ⟨i, h⟩] := by
  rw [List.drop_eq_getElem_cons h]
  rfl

theorem descEntries_eq_flatMap (f : List Char) :
    ∀ l : List (String × JValue),
      descEntries f l = l.flatMap fun kv => descendingAttributeFilter f kv.2
  | [] => rfl
  | kv :: rest => by
    simp only [descEntries, List.flatMap_cons, descEntries_eq_flatMap f rest]

theorem descList_eq_flatMap (f : List Char) :
    ∀ l : List JValue, descList f l = l.flatMap (descendingAttributeFilter f)
  | [] => rfl
  | x :: xs => by
    simp only [descList, List.flatMap_cons, descList_eq_flatMap f xs]

/-! ### Claim theorems: the descendant filter (C1) -/

/-- C1: on an object that directly contains the searched key the
descendant filter returns exactly the value bound to that key and does
not recurse (no deeper or sibling occurrence is returned); on an object
without the key it concatenates the recursive results over all values in
iteration order; on an array it concatenates over all elements; on any
scalar it returns the empty sequence. -/
theorem C1_descendant_filter (name : List Char) :
    (∀ entries c, go_lookup (String.mk name) entries = some c →
      descendingAttributeFilter ('.' :: '.' :: name) (.obj entries) = [c]) ∧
    (∀ entries, go_lookup (String.mk name) entries = none →
      descendingAttributeFilter ('.' :: '.' :: name) (.obj entries) =
        entries.flatMap fun kv => descendingAttributeFilter ('.' :: '.' :: name) kv.2) ∧
    (∀ elems, descendingAttributeFilter ('.' :: '.' :: name) (.arr elems) =
      elems.flatMap (descendingAttributeFilter ('.' :: '.' :: name))) ∧
    (descendingAttributeFilter ('.' :: '.' :: name) .null = [] ∧
      (∀ b, descendingAttributeFilter ('.' :: '.' :: name) (.bool b) = []) ∧
      (∀ x, descendingAttributeFilter ('.' :: '.' :: name) (.num x) = []) ∧
      (∀ s, descendingAttributeFilter ('.' :: '.' :: name) (.str s) = [])) := by
  refine ⟨fun entries c h => ?_, fun entries h => ?_, fun elems => ?_, rfl, fun _ => rfl,
    fun _ => rfl, fun _ => rfl⟩
  · simp only [descendingAttributeFilter, List.drop, h]
  · simp only [descendingAttributeFilter, List.drop, h, descEntries_eq_flatMap]
  · simp only [descendingAttributeFilter, descList_eq_flatMap]

/-- Witness for C1 at concrete inputs: a direct hit masks the nested
occurrence; without a direct hit the nested one is found. -/
theorem C1_witness :
    descendingAttributeFilter "..x".data (.obj [("x", .num 1), ("y", .obj [("x", .num 2)])]) =
      [.num 1] ∧
    descendingAttributeFilter "..x".data (.obj [("y", .obj [("x", .num 2)])]) = [.num 2] :=
  ⟨(C1_descendant_filter "x".data).1 _ _ rfl,
    ((C1_descendant_filter "x".data).2.1 [("y", .obj [("x", .num 2)])] rfl).trans rfl⟩

/-! ### Claim theorems: single-index access (C2) -/

theorem idxFilter_arr_int (f : List Char) (i : Int) (xs : List JValue) (hne : f ≠ ['*'])
    (hAtoi : go_Atoi f = some i) :
    idxFilter ('[' :: (f ++ [']'])) (.arr xs) =
      if outOfRange i xs then some []
      else goSliceExpr (if i < 0 then i + xs.length else i)
        ((if i < 0 then i + xs.length else i) + 1) xs := by
  simp only [idxFilter, shave_brackets, if_neg hne, hAtoi]

theorem go_Atoi_ne_star {f : List Char} {i : Int} (hAtoi : go_Atoi f = some i) : f ≠ ['*'] := by
  intro hh
  rw [hh, go_Atoi_star] at hAtoi
  exact Option.noConfusion hAtoi

/-- C2: for an array of length `n` and a spec parsing as the signed
integer `i`: `0 ≤ i < n` returns exactly the element at `i`; `i ≥ n` or
`i ≤ -n` returns empty (so `-n` itself is rejected); `-n < i < 0` returns
the element at `i + n`. -/
theorem C2_index_filter (f : List Char) (i : Int) (xs : List JValue)
    (hAtoi : go_Atoi f = some i) :
    ((h1 : 0 ≤ i) → (h2 : i < xs.length) →
      idxFilter ('[' :: (f ++ [']'])) (.arr xs) = some [xs.get ⟨i.toNat, by omega⟩]) ∧
    ((xs.length : Int) ≤ i ∨ i ≤ -(xs.length : Int) →
      idxFilter ('[' :: (f ++ [']'])) (.arr xs) = some []) ∧
    ((h1 : -(xs.length : Int) < i) → (h2 : i < 0) →
      idxFilter ('[' :: (f ++ [']'])) (.arr xs) = some [xs.get ⟨(i + xs.length).toNat, by omega⟩]) := by
  refine ⟨fun h1 h2 => ?_, fun h => ?_, fun h1 h2 => ?_⟩
  · rw [idxFilter_arr_int f i xs (go_Atoi_ne_star hAtoi) hAtoi]
    rw [if_neg (by simp only [outOfRange, decide_eq_true_eq]; omega)]
    rw [if_neg (by omega)]
    unfold goSliceExpr
    rw [if_pos (by constructor; omega; constructor; omega; omega)]
    have ht : (i + 1 - i).toNat = 1 := by omega
    rw [ht, drop_take_one (by omega)]
  · rw [idxFilter_arr_int f i xs (go_Atoi_ne_star hAtoi) hAtoi]
    rw [if_pos (by simp only [outOfRange, decide_eq_true_eq]; omega)]
  · rw [idxFilter_arr_int f i xs (go_Atoi_ne_star hAtoi) hAtoi]
    rw [if_neg (by simp only [outOfRange, decide_eq_true_eq]; omega)]
    rw [if_pos h2]
    unfold goSliceExpr
    rw [if_pos (by constructor; omega; constructor; omega; omega)]
    have ht : (i + (xs.length : Int) + 1 - (i + (xs.length : Int))).toNat = 1 := by omega
    rw [ht, drop_take_one (by omega)]

/-- Witness for C2 on the array `[null, true, "a"]`: index 1 hits the
middle element, 3 is out of range, -1 is the last element, and -3 (= -n)
is rejected as out of range. -/
theorem C2_witness :
    idxFilter "[1]".data (.arr [.null, .bool true, .str "a"]) = some [.bool true] ∧
    idxFilter "[3]".data (.arr [.null, .bool true, .str "a"]) = some [] ∧
    idxFilter "[-1]".data (.arr [.null, .bool true, .str "a"]) = some [.str "a"] ∧
    idxFilter "[-3]".data (.arr [.null, .bool true, .str "a"]) = some [] :=
  by
  have h1 := (C2_index_filter ['1'] 1 [.null, .bool true, .str "a"] (by decide)).1
    (by decide) (by decide)
  have h2 := (C2_index_filter ['3'] 3 [.null, .bool true, .str "a"] (by decide)).2.1
    (Or.inl (by decide))
  have h3 := (C2_index_filter ['-', '1'] (-1) [.null, .bool true, .str "a"] (by decide)).2.2
    (by decide) (by decide)
  have h4 := (C2_index_filter ['-', '3'] (-3) [.null, .bool true, .str "a"] (by decide)).2.1
    (Or.inr (by decide))
  exact ⟨h1.trans rfl, h2, h3.trans rfl, h4⟩

/-! ### Claim theorems: slice ranges (C3) and malformed specs (C4) -/

/-- C3 (divergence witness): the claim asserts a normalized
`start >= end` never errors or crashes, but after both bounds pass the
out-of-range validation the source evaluates the Go slice expression
`slice[start:end]`, which panics when `start > end`: on a five-element
array, `[3:1]` panics (modelled as `none`), both at the filter and
through `Query`; only the equal-bounds case `[2:2]` yields the empty
sequence. -/
theorem C3_slice_range_panic :
    Query "$.a[3:1]" [("a", .arr [.num 1, .num 2, .num 3, .num 4, .num 5])] = none ∧
    idxFilter "[3:1]".data (.arr [.num 1, .num 2, .num 3, .num 4, .num 5]) = none ∧
    idxFilter "[2:2]".data (.arr [.num 1, .num 2, .num 3, .num 4, .num 5]) = some [] :=
  ⟨rfl, rfl, rfl⟩

/-- C4 (counterexample): the spec `1:2:3` is not `*`, is not a parseable
integer, and does not contain exactly one colon, yet the filter applied
to a three-element array returns a nonempty partial result instead of
the empty sequence the claim demands. -/
theorem C4_counterexample :
    ("1:2:3".data ≠ ['*'] ∧ go_Atoi "1:2:3".data = none ∧ "1:2:3".data.count ':' = 2) ∧
    idxFilter "[1:2:3]".data (.arr [.null, .bool true, .null]) = some [.bool true] :=
  ⟨⟨by decide, by decide, by decide⟩, rfl⟩

/-- C4 (amended): an index spec that is not `*`, not a parseable signed
integer, nonempty and free of `:` makes the filter return the empty
sequence on every array; a spec containing at least one `:` is always
handled by the slice branch, which reads only the first two
colon-separated groups, so every further group is ignored. -/
theorem C4_malformed_empty (f : List Char) (hne : f ≠ []) (hstar : f ≠ ['*'])
    (hAtoi : go_Atoi f = none) (hcolon : ':' ∉ f) :
    (∀ xs, idxFilter ('[' :: (f ++ [']'])) (.arr xs) = some []) ∧
    (∀ g0 g1 gs slice, sliceCase (g0 :: g1 :: gs) slice = sliceCase [g0, g1] slice) := by
  constructor
  · intro xs
    simp only [idxFilter, shave_brackets, if_neg hstar, hAtoi, splitOn_of_not_mem hcolon,
      sliceCase, if_neg hne]
  · intro g0 g1 gs slice
    rfl

/-- Witness for C4 (amended) at the spec `abc` and a concrete slice-case
group list. -/
theorem C4_witness :
    idxFilter "[abc]".data (.arr [.null, .null]) = some [] ∧
    sliceCase ["1".data, "2".data, "3".data] [.null, .bool true, .null] =
      sliceCase ["1".data, "2".data] [.null, .bool true, .null] :=
  ⟨(C4_malformed_empty "abc".data (by decide) (by decide) (by decide) (by decide)).1 _,
    (C4_malformed_empty "abc".data (by decide) (by decide) (by decide) (by decide)).2 _ _ _ _⟩

/-! ### Claim theorems: expressions with no matching segment (C5) -/

/-- C5: an expression in which none of the three segment grammars
matches (the compiled segment list is empty) returns exactly the
single-element sequence holding the document root unchanged. -/
theorem C5_no_segments (sel : String) (m : List (String × JValue))
    (h : scan sel.data = []) : Query sel m = some [.obj m] := by
  unfold Query
  rw [h]
  rfl

/-- Witness for C5: the expressions `$` and the empty string compile to
no segments and return the root map. -/
theorem C5_witness :
    Query "$" [("k", .null)] = some [.obj [("k", .null)]] ∧
    Query "" [("k", .null)] = some [.obj [("k", .null)]] :=
  ⟨C5_no_segments "$" _ rfl, C5_no_segments "" _ rfl⟩

/-! ### Claim theorems: the typed single-value accessors (C7) -/

/-- C7 (counterexample): the claim says the presence flag is false only
when no conforming match exists; but the accessors examine only the
first query result, so a query whose first result is a bool and whose
second is a string makes the string accessor return `("", false)` even
though a conforming match exists. -/
theorem C7_counterexample :
    ¬ (∀ (sel : String) (m : List (String × JValue)) (rs : List JValue) (s : String),
        Query sel m = some rs → JValue.str s ∈ rs →
        ∃ r, stringAccessor sel m = some (r, true)) := by
  intro h
  obtain ⟨r, hr⟩ := h "$.a[:]" [("a", .arr [.bool true, .str "x"])]
    [.bool true, .str "x"] "x" rfl (by simp)
  have hev : stringAccessor "$.a[:]" [("a", .arr [.bool true, .str "x"])] =
      some ("", false) := rfl
  rw [hev] at hr
  simp at hr

/-- C7 (amended): each single-value accessor inspects only the first
query result: it returns that result with flag true when it conforms to
the accessor's type, and the zero value with flag false when the result
set is empty or the first result does not conform — even when a later
result conforms. -/
theorem C7_accessors_first_result (sel : String) (m : List (String × JValue)) :
    (Query sel m = some [] →
      stringAccessor sel m = some ("", false) ∧
      boolAccessor sel m = some (false, false) ∧
      floatAccessor sel m = some (0, false)) ∧
    (∀ v rest, Query sel m = some (v :: rest) →
      stringAccessor sel m = some (match v with | .str s => (s, true) | _ => ("", false)) ∧
      boolAccessor sel m = some (match v with | .bool b => (b, true) | _ => (false, false)) ∧
      floatAccessor sel m = some (match v with | .num x => (x, true) | _ => (0, false))) := by
  constructor
  · intro h
    refine ⟨?_, ?_, ?_⟩ <;>
      simp only [stringAccessor, boolAccessor, floatAccessor, h] <;> rfl
  · intro v rest h
    refine ⟨?_, ?_, ?_⟩ <;>
      simp only [stringAccessor, boolAccessor, floatAccessor, h] <;>
      cases v <;> rfl

/-- Witness for C7 (amended): on `{"a": [true, "x"]}` with path
`$.a[:]` the first result is the bool, so the string accessor misses
while the bool accessor hits. -/
theorem C7_witness :
    stringAccessor "$.a[:]" [("a", .arr [.bool true, .str "x"])] = some ("", false) ∧
    boolAccessor "$.a[:]" [("a", .arr [.bool true, .str "x"])] = some (true, true) ∧
    stringAccessor "$.missing" [("a", .arr [.bool true, .str "x"])] = some ("", false) := by
  have h1 := ((C7_accessors_first_result "$.a[:]" [("a", .arr [.bool true, .str "x"])]).2
    (.bool true) [.str "x"] rfl)
  have h2 := ((C7_accessors_first_result "$.missing" [("a", .arr [.bool true, .str "x"])]).1 rfl)
  exact ⟨h1.1, h1.2.1, h2.1⟩

/-! ### Claim theorems: the struct-population layer (C8, C10) -/

/-- C8 (divergence witness): a tagged non-sequence field whose query
returns no results makes the source index `results[0]` on an empty
slice, a runtime panic rather than the explicit error the claim
demands; the runtime-variant mismatch half of the claim does hold and
produces the descriptive error naming the field. -/
theorem C8_empty_result_crash :
    (unmarshalFields [] [⟨"A", "$.a", true, .string, .iface, "string", .str ""⟩]).2 =
      UOutcome.crash "runtime error: index out of range [0] with length 0" ∧
    (unmarshalFields [("s", .str "hello")]
      [⟨"B", "$.s", true, .bool, .iface, "bool", .bool false⟩]).2 =
      UOutcome.err "B - value of type string is not assignable to type bool" :=
  ⟨rfl, rfl⟩

theorem processField_untouched (d : List (String × JValue)) (fld : StructField)
    (h : fld.canSet = false ∨ fld.tag = "") : processField d fld = (fld, none) := by
  unfold processField
  rcases h with h | h
  · rw [if_pos h]
  · by_cases hc : fld.canSet = false
    · rw [if_pos hc]
    · rw [if_neg hc, if_pos h]

/-- C10: `unmarshal` leaves every field that is not settable or carries
no tag unchanged — whatever the document, whatever the outcome, the
field's final contents equal its prior contents. -/
theorem C10_untagged_fields_unchanged (d : List (String × JValue)) :
    ∀ (fields : List StructField) (i : Nat) (fld : StructField),
      fields[i]? = some fld → (fld.canSet = false ∨ fld.tag = "") →
      ((unmarshalFields d fields).1)[i]? = some fld := by
  intro fields
  induction fields with
  | nil => intro i fld h _; simp at h
  | cons fld0 rest ih =>
    intro i fld h huntouched
    cases i with
    | zero =>
      rw [List.getElem?_cons_zero] at h
      have hf : fld0 = fld := Option.some.inj h
      rw [← hf] at huntouched ⊢
      have hpu : processField d fld0 = (fld0, none) :=
        processField_untouched d fld0 huntouched
      simp only [unmarshalFields, hpu, List.getElem?_cons_zero]
    | succ j =>
      rw [List.getElem?_cons_succ] at h
      rcases hp : processField d fld0 with ⟨fld', o⟩
      cases o with
      | some oo =>
        simp only [unmarshalFields, hp, List.getElem?_cons_succ]
        exact h
      | none =>
        simp only [unmarshalFields, hp, List.getElem?_cons_succ]
        exact ih j fld h huntouched

/-- Witness for C10: an unsettable field keeps its old value even though
the document has a matching entry, and so does an untagged one. -/
theorem C10_witness :
    ((unmarshalFields [("a", .str "new")]
      [⟨"A", "$.a", false, .string, .iface, "string", .str "old"⟩]).1)[0]? =
      some ⟨"A", "$.a", false, .string, .iface, "string", .str "old"⟩ ∧
    ((unmarshalFields [("a", .str "new")]
      [⟨"B", "", true, .string, .iface, "string", .str "keep"⟩]).1)[0]? =
      some ⟨"B", "", true, .string, .iface, "string", .str "keep"⟩ :=
  ⟨C10_untagged_fields_unchanged _ _ 0 _ rfl (Or.inl rfl),
    C10_untagged_fields_unchanged _ _ 0 _ rfl (Or.inr rfl)⟩

/-! ### Lemmas about the compiled scan -/

theorem length_dropWhile_le (p : Char → Bool) (l : List Char) :
    (l.dropWhile p).length ≤ l.length :=
  (List.dropWhile_sublist p).length_le

theorem bracketMatch_length_le {rest inner rest' : List Char}
    (h : bracketMatch rest = some (inner, rest')) : rest'.length ≤ rest.length := by
  unfold bracketMatch at h
  dsimp only [] at h
  split at h
  · split at h
    · have h2 : rest.drop _ = rest' := congrArg Prod.snd (Option.some.inj h)
      rw [← h2, List.length_drop]
      omega
    · exact absurd h (by simp)
  · exact absurd h (by simp)

theorem scanF_cons_nil (fuel : Nat) (c : Char) :
    scanF (fuel + 1) [c] =
      if c = '.' then []
      else if c = '[' then scanF fuel []
      else scanF fuel [] := rfl

theorem scanF_cons_cons (fuel : Nat) (c c2 : Char) (rest2 : List Char) :
    scanF (fuel + 1) (c :: c2 :: rest2) =
      if c = '.' then
        (if c2 = '.' then
          if rest2.takeWhile isWordChar = [] then scanF fuel (c2 :: rest2)
          else (SegKind.desc, '.' :: '.' :: rest2.takeWhile isWordChar) ::
            scanF fuel (rest2.dropWhile isWordChar)
        else
          if (c2 :: rest2).takeWhile isWordChar = [] then scanF fuel (c2 :: rest2)
          else (SegKind.child, '.' :: (c2 :: rest2).takeWhile isWordChar) ::
            scanF fuel ((c2 :: rest2).dropWhile isWordChar))
      else if c = '[' then
        match bracketMatch (c2 :: rest2) with
        | some (inner, rest') => (SegKind.idx, '[' :: (inner ++ [']'])) :: scanF fuel rest'
        | none => scanF fuel (c2 :: rest2)
      else scanF fuel (c2 :: rest2) := rfl

theorem scanF_nil_any : ∀ f : Nat, scanF f [] = []
  | 0 => rfl
  | _ + 1 => rfl

theorem scanF_congr : ∀ (n : Nat) (l : List Char), l.length ≤ n →
    ∀ f1 f2, l.length ≤ f1 → l.length ≤ f2 → scanF f1 l = scanF f2 l := by
  intro n
  induction n with
  | zero =>
    intro l hl f1 f2 _ _
    have hnil : l = [] := List.eq_nil_of_length_eq_zero (Nat.le_zero.mp hl)
    subst hnil
    rw [scanF_nil_any, scanF_nil_any]
  | succ n ih =>
    intro l hl f1 f2 h1 h2
    cases l with
    | nil => rw [scanF_nil_any, scanF_nil_any]
    | cons c rest =>
      cases f1 with
      | zero => simp at h1
      | succ g1 =>
        cases f2 with
        | zero => simp at h2
        | succ g2 =>
          simp only [List.length_cons] at hl h1 h2
          cases rest with
          | nil =>
            rw [scanF_cons_nil, scanF_cons_nil]
            by_cases hc : c = '.'
            · rw [if_pos hc, if_pos hc]
            · rw [if_neg hc, if_neg hc]
              by_cases hb : c = '['
              · rw [if_pos hb, if_pos hb, scanF_nil_any, scanF_nil_any]
              · rw [if_neg hb, if_neg hb, scanF_nil_any, scanF_nil_any]
          | cons c2 rest2 =>
            simp only [List.length_cons] at hl h1 h2
            rw [scanF_cons_cons, scanF_cons_cons]
            by_cases hc : c = '.'
            · rw [if_pos hc, if_pos hc]
              by_cases hc2 : c2 = '.'
              · rw [if_pos hc2, if_pos hc2]
                by_cases hwz : rest2.takeWhile isWordChar = []
                · rw [if_pos hwz, if_pos hwz]
                  exact ih (c2 :: rest2) (by simp; omega) g1 g2 (by simp; omega)
                    (by simp; omega)
                · rw [if_neg hwz, if_neg hwz]
                  have hlen : (rest2.dropWhile isWordChar).length ≤ rest2.length :=
                    length_dropWhile_le _ _
                  congr 1
                  exact ih (rest2.dropWhile isWordChar) (by omega) g1 g2 (by omega) (by omega)
              · rw [if_neg hc2, if_neg hc2]
                by_cases hwz : (c2 :: rest2).takeWhile isWordChar = []
                · rw [if_pos hwz, if_pos hwz]
                  exact ih (c2 :: rest2) (by simp; omega) g1 g2 (by simp; omega)
                    (by simp; omega)
                · rw [if_neg hwz, if_neg hwz]
                  have hlen : ((c2 :: rest2).dropWhile isWordChar).length ≤ rest2.length + 1 := by
                    have := length_dropWhile_le isWordChar (c2 :: rest2)
                    simpa using this
                  congr 1
                  exact ih ((c2 :: rest2).dropWhile isWordChar) (by omega) g1 g2 (by omega)
                    (by omega)
            · rw [if_neg hc, if_neg hc]
              by_cases hb : c = '['
              · rw [if_pos hb, if_pos hb]
                rcases hbm : bracketMatch (c2 :: rest2) with _ | ⟨inner, rest'⟩
                · simp only [hbm]
                  exact ih (c2 :: rest2) (by simp; omega) g1 g2 (by simp; omega)
                    (by simp; omega)
                · simp only [hbm]
                  have hlen : rest'.length ≤ rest2.length + 1 := by
                    have := bracketMatch_length_le hbm
                    simpa using this
                  congr 1
                  exact ih rest' (by omega) g1 g2 (by omega) (by omega)
              · rw [if_neg hb, if_neg hb]
                exact ih (c2 :: rest2) (by simp; omega) g1 g2 (by simp; omega) (by simp; omega)

theorem scan_nil : scan [] = [] := rfl

theorem scan_other {c : Char} (hc1 : c ≠ '.') (hc2 : c ≠ '[') (rest : List Char) :
    scan (c :: rest) = scan rest := by
  show scanF (rest.length + 1) (c :: rest) = scan rest
  cases rest with
  | nil => rw [scanF_cons_nil, if_neg hc1, if_neg hc2]; rfl
  | cons c2 rest2 => rw [scanF_cons_cons, if_neg hc1, if_neg hc2]; rfl

theorem scan_child {c : Char} (hw : isWordChar c = true) (rest : List Char) :
    scan ('.' :: c :: rest) =
      (SegKind.child, '.' :: (c :: rest).takeWhile isWordChar) ::
        scan ((c :: rest).dropWhile isWordChar) := by
  have hcd : c ≠ '.' := by
    intro hh
    rw [hh] at hw
    exact absurd hw (by decide)
  have hne : (c :: rest).takeWhile isWordChar ≠ [] := by
    simp [List.takeWhile_cons, hw]
  show scanF (rest.length + 2) ('.' :: c :: rest) = _
  rw [scanF_cons_cons, if_pos rfl, if_neg hcd, if_neg hne]
  congr 1
  have hlen : ((c :: rest).dropWhile isWordChar).length ≤ rest.length + 1 := by
    have := length_dropWhile_le isWordChar (c :: rest)
    simpa using this
  exact scanF_congr ((c :: rest).dropWhile isWordChar).length _ le_rfl (rest.length + 1)
    ((c :: rest).dropWhile isWordChar).length hlen le_rfl

theorem scan_bracket {rest inner rest' : List Char}
    (h : bracketMatch rest = some (inner, rest')) :
    scan ('[' :: rest) = (SegKind.idx, '[' :: (inner ++ [']'])) :: scan rest' := by
  have hne : ('[' : Char) ≠ '.' := by decide
  show scanF (rest.length + 1) ('[' :: rest) = _
  cases rest with
  | nil => exact absurd h (by simp [bracketMatch, lastIdxOf])
  | cons c2 rest2 =>
    rw [scanF_cons_cons, if_neg hne, if_pos rfl]
    simp only [h]
    congr 1
    have hlen : rest'.length ≤ rest2.length + 1 := by
      have := bracketMatch_length_le h
      simpa using this
    exact scanF_congr rest'.length _ le_rfl (rest2.length + 1) rest'.length hlen le_rfl

/-! ### Lemmas for malformed index specs and the greedy bracket -/

theorem digitsVal_none_of_mem {c : Char} :
    ∀ {l : List Char}, c ∈ l → c.isDigit = false → ∀ acc, digitsVal acc l = none := by
  intro l
  induction l with
  | nil => intro h; exact absurd h (by simp)
  | cons d rest ih =>
    intro hmem hcd acc
    by_cases hd : d.isDigit
    · have hcr : c ∈ rest := by
        rcases List.mem_cons.mp hmem with hh | hh
        · rw [hh] at hcd; rw [hcd] at hd; exact absurd hd (by simp)
        · exact hh
      simp only [digitsVal, if_pos hd]
      exact ih hcr hcd _
    · simp only [digitsVal, if_neg hd]

theorem go_Atoi_cons_digit {c : Char} (t : List Char) (hc : c.isDigit = true) :
    go_Atoi (c :: t) = (digitsVal 0 (c :: t)).map Int.ofNat := by
  have hp : c ≠ '+' := by intro hh; rw [hh] at hc; exact absurd hc (by decide)
  have hm : c ≠ '-' := by intro hh; rw [hh] at hc; exact absurd hc (by decide)
  simp only [go_Atoi, if_neg hp, if_neg hm]

/-- A spec that is nonempty, not `*`, not a parseable integer and free of
colons always reaches the slice branch with itself as the single group,
whose first-group parse failure returns empty, whatever the value. -/
theorem idxFilter_malformed_nocolon (f : List Char) (hne : f ≠ []) (hstar : f ≠ ['*'])
    (hAtoi : go_Atoi f = none) (hcolon : ':' ∉ f) :
    ∀ v, idxFilter ('[' :: (f ++ [']'])) v = some [] := by
  intro v
  cases v with
  | arr slice =>
    simp only [idxFilter, shave_brackets, if_neg hstar, hAtoi, splitOn_of_not_mem hcolon,
      sliceCase, if_neg hne]
  | null => rfl
  | bool b => rfl
  | num x => rfl
  | str s => rfl
  | obj entries => rfl

theorem bracketMatch_concat (inner : List Char) (hnl : ∀ c ∈ inner, c ≠ '\n')
    (hlen : 1 ≤ inner.length) : bracketMatch (inner ++ [']']) = some (inner, []) := by
  unfold bracketMatch
  dsimp only []
  have hpre : (inner ++ [']']).takeWhile (fun x => decide (x ≠ '\n')) = inner ++ [']'] := by
    rw [List.takeWhile_eq_self_iff]
    intro x hx
    rcases List.mem_append.mp hx with hh | hh
    · simpa using hnl x hh
    · simp only [List.mem_singleton] at hh
      rw [hh]
      decide
  rw [hpre]
  have hli : lastIdxOf ']' (inner ++ [']']) = some inner.length := by
    unfold lastIdxOf
    rw [List.reverse_concat, List.findIdx?_cons]
    simp
  simp only [hli]
  rw [if_pos hlen]
  rw [List.take_left' rfl]
  rw [List.drop_eq_nil_of_le (by simp)]

/-- C9: in an expression holding two bracketed index segments with no
later `]` after them, the greedy `.+` of the bracket grammar makes the
single Index segment span from the first `[` to the last `]`, so its
spec is the unparseable text `di][dj` and the query returns the empty
sequence for every document, instead of the doubly-indexed element. -/
theorem C9_greedy_bracket (w di dj : List Char)
    (hw : w ≠ []) (hwc : ∀ c ∈ w, isWordChar c = true)
    (hdi : di ≠ []) (hdic : ∀ c ∈ di, c.isDigit = true)
    (hdj : dj ≠ []) (hdjc : ∀ c ∈ dj, c.isDigit = true) :
    scan ('$' :: '.' :: (w ++ '[' :: ((di ++ ']' :: '[' :: dj) ++ [']']))) =
      [(SegKind.child, '.' :: w),
        (SegKind.idx, '[' :: ((di ++ ']' :: '[' :: dj) ++ [']']))] ∧
    ∀ m, Query (String.mk ('$' :: '.' :: (w ++ '[' :: ((di ++ ']' :: '[' :: dj) ++ [']']))))
      m = some [] := by
  have hmem_rb : (']' : Char) ∈ di ++ ']' :: '[' :: dj := by simp
  have hstar : di ++ ']' :: '[' :: dj ≠ ['*'] := by
    intro hh
    rw [hh] at hmem_rb
    simp at hmem_rb
  have hne : di ++ ']' :: '[' :: dj ≠ [] := by simp
  have hAtoiN : go_Atoi (di ++ ']' :: '[' :: dj) = none := by
    rcases hdi0 : di with _ | ⟨d0, di'⟩
    · exact absurd hdi0 hdi
    · rw [List.cons_append]
      rw [go_Atoi_cons_digit _ (hdic d0 (by rw [hdi0]; simp))]
      rw [digitsVal_none_of_mem (c := ']') (by simp) (by decide) 0]
      rfl
  have hcolon : (':' : Char) ∉ di ++ ']' :: '[' :: dj := by
    intro hh
    rcases List.mem_append.mp hh with hh1 | hh1
    · exact absurd (hdic ':' hh1) (by decide)
    · rcases List.mem_cons.mp hh1 with hh2 | hh2
      · exact absurd hh2 (by decide)
      · rcases List.mem_cons.mp hh2 with hh3 | hh3
        · exact absurd hh3 (by decide)
        · exact absurd (hdjc ':' hh3) (by decide)
  have hnl : ∀ c ∈ di ++ ']' :: '[' :: dj, c ≠ '\n' := by
    intro c hc
    rcases List.mem_append.mp hc with hh1 | hh1
    · intro he
      rw [he] at hh1
      exact absurd (hdic _ hh1) (by decide)
    · rcases List.mem_cons.mp hh1 with hh2 | hh2
      · rw [hh2]; decide
      · rcases List.mem_cons.mp hh2 with hh3 | hh3
        · rw [hh3]; decide
        · intro he
          rw [he] at hh3
          exact absurd (hdjc _ hh3) (by decide)
  have hlen1 : 1 ≤ (di ++ ']' :: '[' :: dj).length := by
    simp
    omega
  have hbm := bracketMatch_concat _ hnl hlen1
  obtain ⟨wc, w', rfl⟩ : ∃ c t, w = c :: t := by
    rcases w with _ | ⟨c, t⟩
    · exact absurd rfl hw
    · exact ⟨c, t, rfl⟩
  have ht : (wc :: (w' ++ '[' :: ((di ++ ']' :: '[' :: dj) ++ [']']))).takeWhile isWordChar =
      wc :: w' := by
    rw [show wc :: (w' ++ '[' :: ((di ++ ']' :: '[' :: dj) ++ [']'])) =
      (wc :: w') ++ '[' :: ((di ++ ']' :: '[' :: dj) ++ [']']) from by simp]
    rw [List.takeWhile_append_of_pos hwc, List.takeWhile_cons]
    rw [if_neg (by decide)]
    simp
  have hd : (wc :: (w' ++ '[' :: ((di ++ ']' :: '[' :: dj) ++ [']']))).dropWhile isWordChar =
      '[' :: ((di ++ ']' :: '[' :: dj) ++ [']']) := by
    rw [show wc :: (w' ++ '[' :: ((di ++ ']' :: '[' :: dj) ++ [']'])) =
      (wc :: w') ++ '[' :: ((di ++ ']' :: '[' :: dj) ++ [']']) from by simp]
    rw [List.dropWhile_append_of_pos hwc, List.dropWhile_cons]
    rw [if_neg (by decide)]
  have hscan : scan ('$' :: '.' :: ((wc :: w') ++ '[' :: ((di ++ ']' :: '[' :: dj) ++ [']']))) =
      [(SegKind.child, '.' :: (wc :: w')),
        (SegKind.idx, '[' :: ((di ++ ']' :: '[' :: dj) ++ [']']))] := by
    rw [scan_other (by decide) (by decide)]
    rw [show (wc :: w') ++ '[' :: ((di ++ ']' :: '[' :: dj) ++ [']']) =
      wc :: (w' ++ '[' :: ((di ++ ']' :: '[' :: dj) ++ [']'])) from by simp]
    rw [scan_child (hwc wc (by simp))]
    rw [ht, hd]
    rw [scan_bracket hbm, scan_nil]
  refine ⟨hscan, fun m => ?_⟩
  have hidxe := idxFilter_malformed_nocolon _ hne hstar hAtoiN hcolon
  show QueryL (scan ('$' :: '.' :: ((wc :: w') ++ '[' ::
    ((di ++ ']' :: '[' :: dj) ++ [']'])))) [JValue.obj m] = some []
  rw [hscan]
  rcases hlk : go_lookup (String.mk (wc :: w')) m with _ | v
  · simp only [QueryL, applyFilter, mapConcat, attributeFilter, List.drop_succ_cons,
      List.drop_zero, hlk]
  · simp only [QueryL, applyFilter, mapConcat, attributeFilter, List.drop_succ_cons,
      List.drop_zero, hlk, hidxe]
    rfl

/-- Witness for C9: the expression `$.a[0][1]` compiles to a child
segment and one Index segment spanning both brackets, and returns empty
against a document where `a` is an array of arrays and both indices
would be valid. -/
theorem C9_witness :
    Query "$.a[0][1]"
      [("a", .arr [.arr [.num 1, .num 2], .arr [.num 3, .num 4]])] = some [] := by
  have h := (C9_greedy_bracket ['a'] ['0'] ['1'] (by decide) (by decide) (by decide)
    (by decide) (by decide) (by decide)).2
    [("a", .arr [.arr [.num 1, .num 2], .arr [.num 3, .num 4]])]
  exact h

/-! ### Lemmas about the two-presentation relations -/

theorem sameArr_append : ∀ {a b : List JValue}, SameArr a b →
    ∀ {c d : List JValue}, SameArr c d → SameArr (a ++ c) (b ++ d) := by
  intro a
  induction a with
  | nil =>
    intro b h c d h2
    cases h
    exact h2
  | cons x xs ih =>
    intro b h c d h2
    cases h with
    | cons hxy htail => exact SameArr.cons hxy (ih htail h2)

theorem SameArr.length_eq : ∀ {a b : List JValue}, SameArr a b → a.length = b.length := by
  intro a
  induction a with
  | nil => intro b h; cases h; rfl
  | cons x xs ih =>
    intro b h
    cases h with
    | cons hxy htail => simp [ih htail]

theorem SameArr.take : ∀ (n : Nat) {a b : List JValue}, SameArr a b →
    SameArr (a.take n) (b.take n) := by
  intro n
  induction n with
  | zero => intro a b _; exact SameArr.nil
  | succ n ih =>
    intro a b h
    cases h with
    | nil => exact SameArr.nil
    | cons hxy htail => exact SameArr.cons hxy (ih htail)

theorem SameArr.drop : ∀ (n : Nat) {a b : List JValue}, SameArr a b →
    SameArr (a.drop n) (b.drop n) := by
  intro n
  induction n with
  | zero => intro a b h; exact h
  | succ n ih =>
    intro a b h
    cases h with
    | nil => exact SameArr.nil
    | cons _ htail => exact ih htail

theorem SameArrP.of_sameArr {a b : List JValue} (h : SameArr a b) : SameArrP a b :=
  ⟨a, List.Perm.refl a, h⟩

theorem sameArrP_append {a b c d : List JValue} (h1 : SameArrP a b) (h2 : SameArrP c d) :
    SameArrP (a ++ c) (b ++ d) := by
  obtain ⟨m1, p1, s1⟩ := h1
  obtain ⟨m2, p2, s2⟩ := h2
  exact ⟨m1 ++ m2, p1.append p2, sameArr_append s1 s2⟩

theorem SameArrP.perm_left {a a' b : List JValue} (hp : a.Perm a') (h : SameArrP a' b) :
    SameArrP a b := by
  obtain ⟨m, p, s⟩ := h
  exact ⟨m, hp.trans p, s⟩

theorem ROpt.of_some {r1 r2 : List JValue} (h : SameArrP r1 r2) :
    ROpt (some r1) (some r2) := Or.inr ⟨r1, r2, rfl, rfl, h⟩

theorem ROpt.empty : ROpt (some []) (some []) :=
  ROpt.of_some (SameArrP.of_sameArr SameArr.nil)

/-! ### Lookup stability across presentations -/

theorem nodupKeys_iff : ∀ ks : List String, nodupKeys ks = true ↔ ks.Nodup := by
  intro ks
  induction ks with
  | nil => simp [nodupKeys]
  | cons k rest ih =>
    simp only [nodupKeys, Bool.and_eq_true, Bool.not_eq_true', List.contains, List.elem_eq_mem,
      decide_eq_false_iff_not, List.nodup_cons, ih]

theorem nodupKeys_perm {l1 l2 : List (String × JValue)} (h : l1.Perm l2)
    (hnd : nodupKeys (l1.map Prod.fst) = true) : nodupKeys (l2.map Prod.fst) = true := by
  rw [nodupKeys_iff] at hnd ⊢
  exact (h.map Prod.fst).nodup_iff.mp hnd

theorem nodupKeys_tail {k : String} {ks : List String}
    (h : nodupKeys (k :: ks) = true) : nodupKeys ks = true := by
  simp only [nodupKeys, Bool.and_eq_true] at h
  exact h.2

theorem nodupKeys_head_ne {k k2 : String} {ks : List String}
    (h : nodupKeys (k :: k2 :: ks) = true) : k ≠ k2 := by
  simp only [nodupKeys, Bool.and_eq_true, Bool.not_eq_true', List.contains_cons] at h
  intro hh
  rcases h with ⟨h1, _⟩
  rw [hh] at h1
  simp at h1

theorem go_lookup_perm {l1 l2 : List (String × JValue)} (h : l1.Perm l2)
    (hnd : nodupKeys (l1.map Prod.fst) = true) (k : String) :
    go_lookup k l1 = go_lookup k l2 := by
  induction h with
  | nil => rfl
  | cons kv htail ih =>
    simp only [go_lookup]
    by_cases hk : kv.1 = k
    · rw [if_pos hk, if_pos hk]
    · rw [if_neg hk, if_neg hk]
      exact ih (nodupKeys_tail (by simpa using hnd))
  | swap kv1 kv2 l =>
    have hne : kv2.1 ≠ kv1.1 := nodupKeys_head_ne (by simpa using hnd)
    simp only [go_lookup]
    by_cases h2 : kv2.1 = k <;> by_cases h1 : kv1.1 = k
    · exact absurd (h2.trans h1.symm) hne
    · rw [if_pos h2, if_neg h1, if_pos h2]
    · rw [if_neg h2, if_pos h1, if_pos h1]
    · rw [if_neg h2, if_neg h1, if_neg h1, if_neg h2]
  | trans ha hb iha ihb =>
    exact (iha hnd).trans (ihb (nodupKeys_perm ha hnd))

theorem go_lookup_sameEnt : ∀ {l1 l2 : List (String × JValue)}, SameEnt l1 l2 → ∀ k,
    (go_lookup k l1 = none ∧ go_lookup k l2 = none) ∨
    (∃ v1 v2, go_lookup k l1 = some v1 ∧ go_lookup k l2 = some v2 ∧ SameMap v1 v2) := by
  intro l1
  induction l1 with
  | nil =>
    intro l2 h k
    cases h
    exact Or.inl ⟨rfl, rfl⟩
  | cons kv t ih =>
    intro l2 h k
    obtain ⟨k0, v1⟩ := kv
    cases h with
    | cons _ hv hent =>
      by_cases hk : k0 = k
      · right
        exact ⟨v1, _, by simp [go_lookup, hk], by simp [go_lookup, hk], hv⟩
      · rcases ih hent k with ⟨hn1, hn2⟩ | ⟨w1, w2, hs1, hs2, hsm⟩
        · left
          exact ⟨by simp [go_lookup, hk, hn1], by simp [go_lookup, hk, hn2]⟩
        · right
          exact ⟨w1, w2, by simp [go_lookup, hk, hs1], by simp [go_lookup, hk, hs2], hsm⟩

/-! ### Well-formedness plumbing -/

theorem sizeOf_mem_arr {x : JValue} {xs : List JValue} (h : x ∈ xs) :
    sizeOf x < sizeOf (JValue.arr xs) := by
  have h1 := List.sizeOf_lt_of_mem h
  simp only [JValue.arr.sizeOf_spec]
  omega

theorem sizeOf_mem_obj {kv : String × JValue} {kvs : List (String × JValue)} (h : kv ∈ kvs) :
    sizeOf kv.2 < sizeOf (JValue.obj kvs) := by
  have h1 := List.sizeOf_lt_of_mem h
  rcases kv with ⟨a, b⟩
  simp only [Prod.mk.sizeOf_spec] at h1
  simp only [JValue.obj.sizeOf_spec]
  omega

theorem WFbList_mem : ∀ {xs : List JValue}, WFbList xs = true → ∀ x ∈ xs, WFb x = true := by
  intro xs
  induction xs with
  | nil => intro _ x hx; exact absurd hx (by simp)
  | cons y ys ih =>
    intro h x hx
    simp only [WFbList, Bool.and_eq_true] at h
    rcases List.mem_cons.mp hx with hh | hh
    · rw [hh]; exact h.1
    · exact ih h.2 x hh

theorem WFbEntries_mem : ∀ {kvs : List (String × JValue)}, WFbEntries kvs = true →
    ∀ kv ∈ kvs, WFb kv.2 = true := by
  intro kvs
  induction kvs with
  | nil => intro _ kv hkv; exact absurd hkv (by simp)
  | cons y ys ih =>
    intro h kv hkv
    simp only [WFbEntries, Bool.and_eq_true] at h
    rcases List.mem_cons.mp hkv with hh | hh
    · rw [hh]; exact h.1
    · exact ih h.2 kv hh

theorem WFb_obj_parts {kvs : List (String × JValue)} (h : WFb (.obj kvs) = true) :
    nodupKeys (kvs.map Prod.fst) = true ∧ WFbEntries kvs = true := by
  simp only [WFb, Bool.and_eq_true] at h
  exact h

theorem go_lookup_wf {k : String} : ∀ {kvs : List (String × JValue)} {v : JValue},
    go_lookup k kvs = some v → WFbEntries kvs = true → WFb v = true := by
  intro kvs
  induction kvs with
  | nil => intro v h; exact absurd h (by simp [go_lookup])
  | cons kv rest ih =>
    intro v h hwf
    simp only [WFbEntries, Bool.and_eq_true] at hwf
    simp only [go_lookup] at h
    by_cases hk : kv.1 = k
    · rw [if_pos hk] at h
      rw [← Option.some.inj h]
      exact hwf.1
    · rw [if_neg hk] at h
      exact ih h hwf.2

/-! ### The filters respect the presentation relation -/

theorem attributeFilter_rel (f : List Char) {v1 v2 : JValue} (hwf : WFb v1 = true)
    (hsm : SameMap v1 v2) : SameArrP (attributeFilter f v1) (attributeFilter f v2) := by
  cases hsm with
  | null => exact SameArrP.of_sameArr SameArr.nil
  | bool b => exact SameArrP.of_sameArr SameArr.nil
  | num x => exact SameArrP.of_sameArr SameArr.nil
  | str s => exact SameArrP.of_sameArr SameArr.nil
  | arr harr => exact SameArrP.of_sameArr SameArr.nil
  | obj l hperm hent =>
    obtain ⟨hnd, _⟩ := WFb_obj_parts hwf
    have h12 := go_lookup_perm hperm hnd (String.mk (f.drop 1))
    rcases go_lookup_sameEnt hent (String.mk (f.drop 1)) with ⟨hn1, hn2⟩ | ⟨c1, c2, hs1, hs2, hsm'⟩
    · rw [hn1] at h12
      simp only [attributeFilter, h12, hn2]
      exact SameArrP.of_sameArr SameArr.nil
    · rw [hs1] at h12
      simp only [attributeFilter, h12, hs2]
      exact SameArrP.of_sameArr (SameArr.cons hsm' SameArr.nil)

theorem goSliceExpr_rel (lo hi : Int) {xs ys : List JValue} (h : SameArr xs ys) :
    ROpt (goSliceExpr lo hi xs) (goSliceExpr lo hi ys) := by
  have hlen := h.length_eq
  unfold goSliceExpr
  rw [← hlen]
  by_cases hc : 0 ≤ lo ∧ lo ≤ hi ∧ hi ≤ (xs.length : Int)
  · rw [if_pos hc, if_pos hc]
    exact ROpt.of_some (SameArrP.of_sameArr (SameArr.take _ (SameArr.drop _ h)))
  · rw [if_neg hc, if_neg hc]
    exact Or.inl ⟨rfl, rfl⟩

theorem sliceEnd_rel (rest : List (List Char)) (start0 : Int) {xs ys : List JValue}
    (h : SameArr xs ys) : ROpt (sliceEnd rest start0 xs) (sliceEnd rest start0 ys) := by
  have hlen := h.length_eq
  cases rest with
  | nil => exact Or.inl ⟨rfl, rfl⟩
  | cons g1 gs =>
    unfold sliceEnd
    dsimp only []
    rw [← hlen]
    by_cases hg1 : g1 = []
    · rw [if_pos hg1, if_pos hg1]
      exact goSliceExpr_rel _ _ h
    · rw [if_neg hg1, if_neg hg1]
      rcases hA : go_Atoi g1 with _ | e
      · exact ROpt.empty
      · dsimp only []
        have hoor : outOfRange e ys = outOfRange e xs := by
          simp only [outOfRange, hlen]
        rw [hoor]
        by_cases ho : outOfRange e xs = true
        · rw [if_pos ho, if_pos ho]
          exact ROpt.empty
        · rw [if_neg ho, if_neg ho]
          exact goSliceExpr_rel _ _ h

theorem sliceCase_rel (sl : List (List Char)) {xs ys : List JValue} (h : SameArr xs ys) :
    ROpt (sliceCase sl xs) (sliceCase sl ys) := by
  have hlen := h.length_eq
  cases sl with
  | nil => exact Or.inl ⟨rfl, rfl⟩
  | cons g0 rest =>
    unfold sliceCase
    dsimp only []
    by_cases hg0 : g0 = []
    · rw [if_pos hg0, if_pos hg0]
      exact sliceEnd_rel _ _ h
    · rw [if_neg hg0, if_neg hg0]
      rcases hA : go_Atoi g0 with _ | s
      · exact ROpt.empty
      · dsimp only []
        have hoor : outOfRange s ys = outOfRange s xs := by
          simp only [outOfRange, hlen]
        rw [hoor]
        by_cases ho : outOfRange s xs = true
        · rw [if_pos ho, if_pos ho]
          exact ROpt.empty
        · rw [if_neg ho, if_neg ho]
          exact sliceEnd_rel _ _ h

theorem idxFilter_rel (f : List Char) {v1 v2 : JValue} (hsm : SameMap v1 v2) :
    ROpt (idxFilter f v1) (idxFilter f v2) := by
  cases hsm with
  | null => exact ROpt.empty
  | bool b => exact ROpt.empty
  | num x => exact ROpt.empty
  | str s => exact ROpt.empty
  | obj l hperm hent => exact ROpt.empty
  | arr harr =>
    rename_i xs ys
    have hlen := harr.length_eq
    simp only [idxFilter]
    by_cases hstar : (f.drop 1).dropLast = ['*']
    · rw [if_pos hstar, if_pos hstar]
      exact ROpt.of_some (SameArrP.of_sameArr harr)
    · rw [if_neg hstar, if_neg hstar]
      rcases hA : go_Atoi ((f.drop 1).dropLast) with _ | i
      · exact sliceCase_rel _ harr
      · dsimp only []
        have hoor : outOfRange i ys = outOfRange i xs := by
          simp only [outOfRange, hlen]
        rw [hoor]
        by_cases ho : outOfRange i xs = true
        · rw [if_pos ho, if_pos ho]
          exact ROpt.empty
        · rw [if_neg ho, if_neg ho]
          rw [← hlen]
          exact goSliceExpr_rel _ _ harr

theorem descList_rel (f : List Char) : ∀ {xs ys : List JValue}, SameArr xs ys →
    (∀ x ∈ xs, ∀ y, SameMap x y →
      SameArrP (descendingAttributeFilter f x) (descendingAttributeFilter f y)) →
    SameArrP (descList f xs) (descList f ys) := by
  intro xs
  induction xs with
  | nil =>
    intro ys h _
    cases h
    exact SameArrP.of_sameArr SameArr.nil
  | cons x xs ih =>
    intro ys h hpt
    cases h with
    | cons hxy htail =>
      exact sameArrP_append (hpt x (by simp) _ hxy)
        (ih htail (fun a ha y hy => hpt a (by simp [ha]) y hy))

theorem descEntries_rel (f : List Char) : ∀ {l1 l2 : List (String × JValue)}, SameEnt l1 l2 →
    (∀ kv ∈ l1, ∀ y, SameMap kv.2 y →
      SameArrP (descendingAttributeFilter f kv.2) (descendingAttributeFilter f y)) →
    SameArrP (descEntries f l1) (descEntries f l2) := by
  intro l1
  induction l1 with
  | nil =>
    intro l2 h _
    cases h
    exact SameArrP.of_sameArr SameArr.nil
  | cons kv t ih =>
    intro l2 h hpt
    obtain ⟨k0, v1⟩ := kv
    cases h with
    | cons _ hv hent =>
      exact sameArrP_append (hpt (k0, v1) (by simp) _ hv)
        (ih hent (fun a ha y hy => hpt a (by simp [ha]) y hy))

theorem descEntries_perm (f : List Char) {l1 l2 : List (String × JValue)} (h : l1.Perm l2) :
    (descEntries f l1).Perm (descEntries f l2) := by
  rw [descEntries_eq_flatMap, descEntries_eq_flatMap]
  exact h.flatMap_right _

theorem desc_rel (f : List Char) :
    ∀ (n : Nat) (v1 : JValue), sizeOf v1 ≤ n → ∀ v2, WFb v1 = true → SameMap v1 v2 →
      SameArrP (descendingAttributeFilter f v1) (descendingAttributeFilter f v2) := by
  intro n
  induction n with
  | zero =>
    intro v1 h
    cases v1 <;> simp at h
  | succ n ih =>
    intro v1 hsz v2 hwf hsm
    cases hsm with
    | null => exact SameArrP.of_sameArr SameArr.nil
    | bool b => exact SameArrP.of_sameArr SameArr.nil
    | num x => exact SameArrP.of_sameArr SameArr.nil
    | str s => exact SameArrP.of_sameArr SameArr.nil
    | arr harr =>
      rename_i xs ys
      show SameArrP (descList f xs) (descList f ys)
      refine descList_rel f harr (fun x hx y hy => ?_)
      have hszx : sizeOf x ≤ n := by
        have := sizeOf_mem_arr hx
        omega
      exact ih x hszx y (WFbList_mem hwf x hx) hy
    | obj l hperm hent =>
      rename_i kvs1 kvs2
      obtain ⟨hnd, hwfe⟩ := WFb_obj_parts hwf
      have h12 := go_lookup_perm hperm hnd (String.mk (f.drop 2))
      rcases go_lookup_sameEnt hent (String.mk (f.drop 2)) with ⟨hn1, hn2⟩ | ⟨c1, c2, hs1, hs2, hsm'⟩
      · rw [hn1] at h12
        simp only [descendingAttributeFilter, h12, hn2]
        have hperm' : (descEntries f kvs1).Perm (descEntries f l) := descEntries_perm f hperm
        refine SameArrP.perm_left hperm' ?_
        refine descEntries_rel f hent (fun kv hkv y hy => ?_)
        have hkv1 : kv ∈ kvs1 := hperm.mem_iff.mpr hkv
        have hszkv : sizeOf kv.2 ≤ n := by
          have := sizeOf_mem_obj hkv1
          omega
        exact ih kv.2 hszkv y (WFbEntries_mem hwfe kv hkv1) hy
      · rw [hs1] at h12
        simp only [descendingAttributeFilter, h12, hs2]
        exact SameArrP.of_sameArr (SameArr.cons hsm' SameArr.nil)

/-! ### Filter outputs stay inside the tree, hence well-formed -/

theorem attributeFilter_WF (f : List Char) {v : JValue} (hwf : WFb v = true) :
    ∀ x ∈ attributeFilter f v, WFb x = true := by
  intro x hx
  cases v with
  | obj entries =>
    rcases hlk : go_lookup (String.mk (f.drop 1)) entries with _ | c
    · simp only [attributeFilter, hlk] at hx
      exact absurd hx (by simp)
    · simp only [attributeFilter, hlk, List.mem_singleton] at hx
      rw [hx]
      exact go_lookup_wf hlk (WFb_obj_parts hwf).2
  | null => exact absurd hx (by simp [attributeFilter])
  | bool b => exact absurd hx (by simp [attributeFilter])
  | num q => exact absurd hx (by simp [attributeFilter])
  | str s => exact absurd hx (by simp [attributeFilter])
  | arr elems => exact absurd hx (by simp [attributeFilter])

theorem goSliceExpr_subset {lo hi : Int} {xs rs : List JValue}
    (h : goSliceExpr lo hi xs = some rs) : ∀ x ∈ rs, x ∈ xs := by
  intro x hx
  unfold goSliceExpr at h
  by_cases hc : 0 ≤ lo ∧ lo ≤ hi ∧ hi ≤ (xs.length : Int)
  · rw [if_pos hc] at h
    rw [← Option.some.inj h] at hx
    exact List.drop_subset _ _ (List.take_subset _ _ hx)
  · rw [if_neg hc] at h
    exact absurd h (by simp)

theorem sliceEnd_subset {rest : List (List Char)} {start0 : Int} {xs rs : List JValue}
    (h : sliceEnd rest start0 xs = some rs) : ∀ x ∈ rs, x ∈ xs := by
  intro x hx
  cases rest with
  | nil => exact absurd h (by simp [sliceEnd])
  | cons g1 gs =>
    unfold sliceEnd at h
    dsimp only [] at h
    by_cases hg1 : g1 = []
    · rw [if_pos hg1] at h
      exact goSliceExpr_subset h x hx
    · rw [if_neg hg1] at h
      rcases hA : go_Atoi g1 with _ | e
      · rw [hA] at h
        dsimp only [] at h
        rw [← Option.some.inj h] at hx
        exact absurd hx (by simp)
      · rw [hA] at h
        dsimp only [] at h
        by_cases ho : outOfRange e xs = true
        · rw [if_pos ho] at h
          rw [← Option.some.inj h] at hx
          exact absurd hx (by simp)
        · rw [if_neg ho] at h
          exact goSliceExpr_subset h x hx

theorem sliceCase_subset {sl : List (List Char)} {xs rs : List JValue}
    (h : sliceCase sl xs = some rs) : ∀ x ∈ rs, x ∈ xs := by
  intro x hx
  cases sl with
  | nil => exact absurd h (by simp [sliceCase])
  | cons g0 rest =>
    unfold sliceCase at h
    dsimp only [] at h
    by_cases hg0 : g0 = []
    · rw [if_pos hg0] at h
      exact sliceEnd_subset h x hx
    · rw [if_neg hg0] at h
      rcases hA : go_Atoi g0 with _ | s
      · rw [hA] at h
        dsimp only [] at h
        rw [← Option.some.inj h] at hx
        exact absurd hx (by simp)
      · rw [hA] at h
        dsimp only [] at h
        by_cases ho : outOfRange s xs = true
        · rw [if_pos ho] at h
          rw [← Option.some.inj h] at hx
          exact absurd hx (by simp)
        · rw [if_neg ho] at h
          exact sliceEnd_subset h x hx

theorem idxFilter_WF (f : List Char) {v : JValue} {rs : List JValue} (hwf : WFb v = true)
    (h : idxFilter f v = some rs) : ∀ x ∈ rs, WFb x = true := by
  intro x hx
  cases v with
  | arr xs =>
    have hsub : x ∈ xs := by
      simp only [idxFilter] at h
      by_cases hstar : (f.drop 1).dropLast = ['*']
      · rw [if_pos hstar] at h
        rw [← Option.some.inj h] at hx
        exact hx
      · rw [if_neg hstar] at h
        rcases hA : go_Atoi ((f.drop 1).dropLast) with _ | i
        · rw [hA] at h
          exact sliceCase_subset h x hx
        · rw [hA] at h
          dsimp only [] at h
          by_cases ho : outOfRange i xs = true
          · rw [if_pos ho] at h
            rw [← Option.some.inj h] at hx
            exact absurd hx (by simp)
          · rw [if_neg ho] at h
            exact goSliceExpr_subset h x hx
    exact WFbList_mem hwf x hsub
  | null =>
    rw [← Option.some.inj h] at hx
    exact absurd hx (by simp)
  | bool b =>
    rw [← Option.some.inj h] at hx
    exact absurd hx (by simp)
  | num q =>
    rw [← Option.some.inj h] at hx
    exact absurd hx (by simp)
  | str s =>
    rw [← Option.some.inj h] at hx
    exact absurd hx (by simp)
  | obj entries =>
    rw [← Option.some.inj h] at hx
    exact absurd hx (by simp)

theorem descList_WF (f : List Char) : ∀ {xs : List JValue},
    (∀ x ∈ xs, ∀ u ∈ descendingAttributeFilter f x, WFb u = true) →
    ∀ u ∈ descList f xs, WFb u = true := by
  intro xs
  induction xs with
  | nil => intro _ u hu; exact absurd hu (by simp [descList])
  | cons x rest ih =>
    intro hpt u hu
    rcases List.mem_append.mp hu with hh | hh
    · exact hpt x (by simp) u hh
    · exact ih (fun a ha => hpt a (by simp [ha])) u hh

theorem descEntries_WF (f : List Char) : ∀ {kvs : List (String × JValue)},
    (∀ kv ∈ kvs, ∀ u ∈ descendingAttributeFilter f kv.2, WFb u = true) →
    ∀ u ∈ descEntries f kvs, WFb u = true := by
  intro kvs
  induction kvs with
  | nil => intro _ u hu; exact absurd hu (by simp [descEntries])
  | cons kv rest ih =>
    intro hpt u hu
    rcases List.mem_append.mp hu with hh | hh
    · exact hpt kv (by simp) u hh
    · exact ih (fun a ha => hpt a (by simp [ha])) u hh

theorem desc_WF (f : List Char) : ∀ (n : Nat) (v : JValue), sizeOf v ≤ n → WFb v = true →
    ∀ u ∈ descendingAttributeFilter f v, WFb u = true := by
  intro n
  induction n with
  | zero =>
    intro v h
    cases v <;> simp at h
  | succ n ih =>
    intro v hsz hwf u hu
    cases v with
    | null => exact absurd hu (by simp [descendingAttributeFilter])
    | bool b => exact absurd hu (by simp [descendingAttributeFilter])
    | num q => exact absurd hu (by simp [descendingAttributeFilter])
    | str s => exact absurd hu (by simp [descendingAttributeFilter])
    | arr xs =>
      refine descList_WF f (fun x hx w hw => ?_) u hu
      have : sizeOf x ≤ n := by
        have := sizeOf_mem_arr hx
        omega
      exact ih x this (WFbList_mem hwf x hx) w hw
    | obj kvs =>
      obtain ⟨hnd, hwfe⟩ := WFb_obj_parts hwf
      rcases hlk : go_lookup (String.mk (f.drop 2)) kvs with _ | c
      · simp only [descendingAttributeFilter, hlk] at hu
        refine descEntries_WF f (fun kv hkv w hw => ?_) u hu
        have : sizeOf kv.2 ≤ n := by
          have := sizeOf_mem_obj hkv
          omega
        exact ih kv.2 this (WFbEntries_mem hwfe kv hkv) w hw
      · simp only [descendingAttributeFilter, hlk, List.mem_singleton] at hu
        rw [hu]
        exact go_lookup_wf hlk hwfe

/-! ### The query driver respects the presentation relation -/

theorem applyFilter_rel (k : SegKind) (f : List Char) {a b : JValue} (hwf : WFb a = true)
    (hsm : SameMap a b) : ROpt (applyFilter k f a) (applyFilter k f b) := by
  cases k with
  | desc =>
    exact ROpt.of_some (desc_rel f (sizeOf a) a le_rfl b hwf hsm)
  | child =>
    exact ROpt.of_some (attributeFilter_rel f hwf hsm)
  | idx => exact idxFilter_rel f hsm

theorem applyFilter_WF (k : SegKind) (f : List Char) {a : JValue} {rs : List JValue}
    (hwf : WFb a = true) (h : applyFilter k f a = some rs) : ∀ x ∈ rs, WFb x = true := by
  cases k with
  | desc =>
    have hrs : rs = descendingAttributeFilter f a := (Option.some.inj h).symm
    rw [hrs]
    exact desc_WF f (sizeOf a) a le_rfl hwf
  | child =>
    have hrs : rs = attributeFilter f a := (Option.some.inj h).symm
    rw [hrs]
    exact attributeFilter_WF f hwf
  | idx => exact idxFilter_WF f hwf h

theorem mapConcat_WF (g : JValue → Option (List JValue)) :
    ∀ {objs r : List JValue}, mapConcat g objs = some r →
    (∀ o ∈ objs, ∀ rs, g o = some rs → ∀ x ∈ rs, WFb x = true) →
    ∀ x ∈ r, WFb x = true := by
  intro objs
  induction objs with
  | nil =>
    intro r h _ x hx
    simp only [mapConcat] at h
    rw [← Option.some.inj h] at hx
    exact absurd hx (by simp)
  | cons o objs ih =>
    intro r h hpt x hx
    simp only [mapConcat] at h
    rcases hgo : g o with _ | rs
    · rw [hgo] at h
      exact absurd h (by simp)
    · rw [hgo] at h
      rcases hmc : mapConcat g objs with _ | rest
      · rw [hmc] at h
        exact absurd h (by simp)
      · rw [hmc] at h
        dsimp only [] at h
        rw [← Option.some.inj h] at hx
        rcases List.mem_append.mp hx with hh | hh
        · exact hpt o (by simp) rs hgo x hh
        · exact ih hmc (fun a ha => hpt a (by simp [ha])) x hh

theorem mapConcat_perm (g : JValue → Option (List JValue)) {l1 l2 : List JValue}
    (h : l1.Perm l2) :
    (mapConcat g l1 = none ∧ mapConcat g l2 = none) ∨
    ∃ r1 r2, mapConcat g l1 = some r1 ∧ mapConcat g l2 = some r2 ∧ r1.Perm r2 := by
  induction h with
  | nil => exact Or.inr ⟨[], [], rfl, rfl, List.Perm.refl []⟩
  | cons x htail ih =>
    rcases hgx : g x with _ | rs
    · exact Or.inl ⟨by simp [mapConcat, hgx], by simp [mapConcat, hgx]⟩
    · rcases ih with ⟨h1, h2⟩ | ⟨r1, r2, h1, h2, hp⟩
      · exact Or.inl ⟨by simp [mapConcat, hgx, h1], by simp [mapConcat, hgx, h2]⟩
      · exact Or.inr ⟨rs ++ r1, rs ++ r2, by simp [mapConcat, hgx, h1],
          by simp [mapConcat, hgx, h2], hp.append_left rs⟩
  | swap x y l =>
    rcases hgx : g x with _ | rx
    · refine Or.inl ⟨?_, ?_⟩ <;> simp [mapConcat, hgx] <;>
        rcases g y with _ | ry <;> simp
    · rcases hgy : g y with _ | ry
      · exact Or.inl ⟨by simp [mapConcat, hgx, hgy], by simp [mapConcat, hgx, hgy]⟩
      · rcases hml : mapConcat g l with _ | r
        · exact Or.inl ⟨by simp [mapConcat, hgx, hgy, hml], by simp [mapConcat, hgx, hgy, hml]⟩
        · refine Or.inr ⟨ry ++ (rx ++ r), rx ++ (ry ++ r),
            by simp [mapConcat, hgx, hgy, hml], by simp [mapConcat, hgx, hgy, hml], ?_⟩
          rw [← List.append_assoc, ← List.append_assoc]
          exact List.perm_append_comm.append_right r
  | trans hab hbc ihab ihbc =>
    rcases ihab with ⟨h1, h2⟩ | ⟨r1, r2, h1, h2, hp⟩
    · rcases ihbc with ⟨h3, h4⟩ | ⟨r3, r4, h3, h4, hp2⟩
      · exact Or.inl ⟨h1, h4⟩
      · rw [h2] at h3
        exact absurd h3 (by simp)
    · rcases ihbc with ⟨h3, h4⟩ | ⟨r3, r4, h3, h4, hp2⟩
      · rw [h2] at h3
        exact absurd h3 (by simp)
      · rw [h2] at h3
        have : r2 = r3 := Option.some.inj h3
        exact Or.inr ⟨r1, r4, h1, h4, (this ▸ hp).trans hp2⟩

theorem mapConcat_rel (g : JValue → Option (List JValue)) :
    ∀ {l1 l2 : List JValue}, SameArr l1 l2 →
    (∀ a ∈ l1, ∀ b, SameMap a b → ROpt (g a) (g b)) →
    ROpt (mapConcat g l1) (mapConcat g l2) := by
  intro l1
  induction l1 with
  | nil =>
    intro l2 h _
    cases h
    exact ROpt.empty
  | cons x xs ih =>
    intro l2 h hpt
    cases h with
    | cons hxy htail =>
      rename_i y ys
      rcases hpt x (by simp) y hxy with ⟨hn1, hn2⟩ | ⟨r1, r2, hs1, hs2, hsp⟩
      · exact Or.inl ⟨by simp [mapConcat, hn1], by simp [mapConcat, hn2]⟩
      · rcases ih htail (fun a ha b hb => hpt a (by simp [ha]) b hb) with
          ⟨hn1, hn2⟩ | ⟨t1, t2, ht1, ht2, htp⟩
        · exact Or.inl ⟨by simp [mapConcat, hs1, hn1], by simp [mapConcat, hs2, hn2]⟩
        · exact Or.inr ⟨r1 ++ t1, r2 ++ t2, by simp [mapConcat, hs1, ht1],
            by simp [mapConcat, hs2, ht2], sameArrP_append hsp htp⟩

theorem QueryL_rel : ∀ (segs : List (SegKind × List Char)) {ws1 ws2 : List JValue},
    (∀ v ∈ ws1, WFb v = true) → SameArrP ws1 ws2 →
    ROpt (QueryL segs ws1) (QueryL segs ws2) := by
  intro segs
  induction segs with
  | nil =>
    intro ws1 ws2 _ hrel
    exact ROpt.of_some hrel
  | cons seg rest ih =>
    intro ws1 ws2 hwf hrel
    obtain ⟨mm, hperm, hsa⟩ := hrel
    have hwfmm : ∀ v ∈ mm, WFb v = true := fun v hv => hwf v (hperm.mem_iff.mpr hv)
    have hstep1 := mapConcat_perm (applyFilter seg.1 seg.2) hperm
    have hstep2 := mapConcat_rel (applyFilter seg.1 seg.2) hsa
      (fun a ha b hb => applyFilter_rel seg.1 seg.2 (hwfmm a ha) hb)
    rcases hstep1 with ⟨ha1, ha2⟩ | ⟨r1, rm, ha1, ha2, hap⟩
    · rcases hstep2 with ⟨hb1, hb2⟩ | ⟨rm', r2, hb1, hb2, _⟩
      · exact Or.inl ⟨by simp [QueryL, ha1], by simp [QueryL, hb2]⟩
      · rw [ha2] at hb1
        exact absurd hb1 (by simp)
    · rcases hstep2 with ⟨hb1, hb2⟩ | ⟨rm', r2, hb1, hb2, hbp⟩
      · rw [ha2] at hb1
        exact absurd hb1 (by simp)
      · rw [ha2] at hb1
        have hrm : rm = rm' := Option.some.inj hb1
        subst hrm
        have hnext : SameArrP r1 r2 := SameArrP.perm_left hap hbp
        have hwfr1 : ∀ v ∈ r1, WFb v = true :=
          mapConcat_WF _ ha1 (fun o ho rs hrs => applyFilter_WF seg.1 seg.2 (hwf o ho) hrs)
        have := ih hwfr1 hnext
        simp only [QueryL, ha1, hb2]
        exact this

/-! ### Claim theorems: determinism across repeated runs (C6) -/

def exampleDoc1 : List (String × JValue) :=
  [("a", .obj [("x", .num 1)]), ("b", .obj [("x", .num 2)])]

def exampleDoc2 : List (String × JValue) :=
  [("b", .obj [("x", .num 2)]), ("a", .obj [("x", .num 1)])]

theorem exampleDocs_sameMap : SameMap (.obj exampleDoc1) (.obj exampleDoc2) := by
  unfold exampleDoc1 exampleDoc2
  exact SameMap.obj [("b", .obj [("x", .num 2)]), ("a", .obj [("x", .num 1)])]
    (List.Perm.swap ("b", JValue.obj [("x", JValue.num 2)])
      ("a", JValue.obj [("x", JValue.num 1)]) [])
    (SameEnt.cons "b"
      (SameMap.obj [("x", .num 2)] (List.Perm.refl _)
        (SameEnt.cons "x" (SameMap.num 2) SameEnt.nil))
      (SameEnt.cons "a"
        (SameMap.obj [("x", .num 1)] (List.Perm.refl _)
          (SameEnt.cons "x" (SameMap.num 1) SameEnt.nil))
        SameEnt.nil))

/-- C6 (counterexample): Go's map iteration order is unspecified and can
differ between two runs over the same unmodified map; two presentations
of the same document whose top-level entries are enumerated in opposite
orders make `$..x` return the same two matches in opposite orders, so
the result sequences of the two runs are not identical. -/
theorem C6_counterexample :
    ¬ (∀ (sel : String) (m1 m2 : List (String × JValue)), WFb (.obj m1) = true →
        SameMap (.obj m1) (.obj m2) → SameResOpt (Query sel m1) (Query sel m2)) := by
  intro h
  have hres := h "$..x" exampleDoc1 exampleDoc2 (by rfl) exampleDocs_sameMap
  have e1 : Query "$..x" exampleDoc1 = some [.num 1, .num 2] := rfl
  have e2 : Query "$..x" exampleDoc2 = some [.num 2, .num 1] := rfl
  rcases hres with ⟨hn, _⟩ | ⟨r1, r2, hs1, hs2, hsa⟩
  · rw [e1] at hn
    exact Option.noConfusion hn
  · rw [e1] at hs1
    rw [e2] at hs2
    have hr1 : [JValue.num 1, JValue.num 2] = r1 := Option.some.inj hs1
    have hr2 : [JValue.num 2, JValue.num 1] = r2 := Option.some.inj hs2
    rw [← hr1, ← hr2] at hsa
    cases hsa with
    | cons h1 _ => cases h1

/-- C6 (amended): a query is a pure function of the expression and of
the presented tree, so two runs that enumerate every map's entries in
the same order return identical sequences; across two runs whose
enumeration orders differ (two `SameMap` presentations of the same
document), both runs panic together or both succeed with result
sequences that hold the same matches up to order. -/
theorem C6_query_deterministic_up_to_order (sel : String)
    (m1 m2 : List (String × JValue)) (hwf : WFb (.obj m1) = true)
    (hsm : SameMap (.obj m1) (.obj m2)) : ROpt (Query sel m1) (Query sel m2) := by
  unfold Query
  refine QueryL_rel (scan sel.data) (fun v hv => ?_) 
    (SameArrP.of_sameArr (SameArr.cons hsm SameArr.nil))
  rw [List.mem_singleton.mp hv]
  exact hwf

/-- Witness for C6 (amended) on the two presentations of the example
document. -/
theorem C6_witness : ROpt (Query "$..x" exampleDoc1) (Query "$..x" exampleDoc2) :=
  C6_query_deterministic_up_to_order "$..x" exampleDoc1 exampleDoc2 (by rfl)
    exampleDocs_sameMap
